import Mathlib

/-!
Verification of the command/data bit-framing codec of the `display-st7701s`
crate (`src/crates/display-st7701s/src/lib.rs`, `blocking.rs`, `async.rs`).

The codec packs a logical stream of (role-bit, payload-byte) units into
physical bytes for an 8-bit transport: `format_command` / `format_data`
(lib.rs lines 140-175 and 194-229) walk the payload with a one-byte bit
carry, OR a framing bit into every physical byte, and realign the output to
8-byte groups with NOP filler bytes.  `send_commands` / `send_data`
(blocking.rs and async.rs) split long inputs into chunks of `N * 8 / 9` raw
bytes and issue one transport write per chunk.

The embedding below models `u8` arithmetic as `Nat` with explicit reduction
mod 256.  Rust shift operators on `u8` mask the shift amount by the bit
width when overflow checks are off (release profile), so the helpers below
mask the shift amount mod 8; the one source site where the mask actually
fires (`byte >> (shift + 1)` with `shift = 7`) is an overflowing shift that
panics under debug assertions, and is tracked separately by
`formatShiftsOk`.  Writing `buffer[i]` with `i` out of bounds panics in
Rust in every profile; the encoder therefore returns `Option`, with `none`
modelling an out-of-bounds buffer write (a panic).
-/

namespace St7701s

/-- Right shift of a `u8` value: Rust `x >> s` with the release-profile
masking of the shift amount by the bit width. -/
def u8shr (x s : Nat) : Nat := (x % 256) >>> (s % 8)

/-- Left shift of a `u8` value: Rust `x << s`, result truncated to 8 bits,
shift amount masked by the bit width as in the release profile. -/
def u8shl (x s : Nat) : Nat := ((x % 256) <<< (s % 8)) % 256

/-- One write `buffer[i] = v` into a buffer of capacity `N`, modelled as a
function update; an out-of-bounds index is a Rust panic, modelled as
`none`. -/
def wr (N : Nat) (b : Nat → Nat) (i v : Nat) : Option (Nat → Nat) :=
  if i < N then some (fun j => if j = i then v else b j) else none

/-- The `for byte in iter` loop of `format_command` / `format_data`
(lib.rs lines 155-160 and 209-214): for each remaining input byte, with
`shift = byte_index % 8`,

  `buffer[byte_index] |= bit_carry >> shift | byte >> (shift + 1) | 1u8 << (7 - shift);`
  `bit_carry = byte << (7 - shift);`
  `byte_index += 1;`

The state is the buffer, the bit carry and the byte index. -/
def formatLoop (N : Nat) : List Nat → (Nat → Nat) → Nat → Nat →
    Option ((Nat → Nat) × Nat × Nat)
  | [], b, carry, idx => some (b, carry, idx)
  | byte :: rest, b, carry, idx =>
    let s := idx % 8
    match wr N b idx
        (b idx ||| (u8shr carry s ||| u8shr byte (s + 1) ||| u8shl 1 (7 - s))) with
    | none => none
    | some b2 => formatLoop N rest b2 (u8shl byte (7 - s)) (idx + 1)

/-- The realignment loop of `format_command` / `format_data`
(lib.rs lines 168-171 and 222-225):

  `while !byte_index.is_multiple_of(8) {`
  `    buffer[byte_index] = 1u8 << (7 - (byte_index % 8));`
  `    byte_index += 1;`
  `}`

The loop runs at most 7 times; it is written with explicit fuel (any fuel
of at least 7 gives the loop's behaviour, and it is always called with 8). -/
def nopFill (N : Nat) : Nat → (Nat → Nat) → Nat → Option ((Nat → Nat) × Nat)
  | 0, b, idx => some (b, idx)
  | fuel + 1, b, idx =>
    if idx % 8 = 0 then some (b, idx)
    else
      match wr N b idx (u8shl 1 (7 - idx % 8)) with
      | none => none
      | some b2 => nopFill N fuel b2 (idx + 1)

/-- The tail of `format_command` / `format_data` after the main loop
(lib.rs lines 162-172 and 216-226): if the byte index is not a multiple of
8, append the final byte carry

  `buffer[byte_index] = bit_carry | 1u8 << (7 - (byte_index % 8));`

and then realign to the next 8-byte group boundary with NOP bytes. -/
def formatFinish (N : Nat) (b : Nat → Nat) (carry idx : Nat) :
    Option ((Nat → Nat) × Nat) :=
  if idx % 8 = 0 then some (b, idx)
  else
    match wr N b idx (carry ||| u8shl 1 (7 - idx % 8)) with
    | none => none
    | some b2 => nopFill N 8 b2 (idx + 1)

/-- The tail shared verbatim by `format_command` (lib.rs lines 154-174) and
`format_data` (lib.rs lines 208-228): starting from the buffer after the
first-byte write, with `byte_index = 1` and the carry from the first byte,
run the remaining-bytes loop, flush and realign, and return the sub-slice
`&buffer[..byte_index]`. -/
def afterFirst (N : Nat) (b1 : Nat → Nat) (carry : Nat) (rest : List Nat) :
    Option (List Nat) :=
  match formatLoop N rest b1 carry 1 with
  | none => none
  | some (b2, carry2, idx2) =>
    match formatFinish N b2 carry2 idx2 with
    | none => none
    | some (b4, idx4) => some ((List.range idx4).map b4)

/-- Rust `format_command(iter, buffer)` over a buffer of capacity `N`
(lib.rs lines 140-175).  The buffer is zero-filled first; an empty input
returns the empty sub-slice; otherwise the first byte is prefixed with a
`0` bit (`buffer[0] |= cmd >> 1`, reading the just-zeroed cell), the
remaining bytes are processed by the main loop, and the output is realigned
to an 8-byte group.  The returned value is the sub-slice
`&buffer[..byte_index]`; `none` models a panic from an out-of-bounds buffer
write. -/
def formatCommand (input : List Nat) (N : Nat) : Option (List Nat) :=
  let buf0 : Nat → Nat := fun _ => 0
  match input with
  | [] => some []
  | cmd :: rest =>
    match wr N buf0 0 (buf0 0 ||| u8shr cmd 1) with
    | none => none
    | some b1 => afterFirst N b1 (u8shl cmd 7) rest

/-- Rust `format_data(iter, buffer)` over a buffer of capacity `N`
(lib.rs lines 194-229).  Identical to `format_command` except that the
first byte is prefixed with a `1` bit:
`buffer[0] |= (cmd >> 1) | 0x80`. -/
def formatData (input : List Nat) (N : Nat) : Option (List Nat) :=
  let buf0 : Nat → Nat := fun _ => 0
  match input with
  | [] => some []
  | cmd :: rest =>
    match wr N buf0 0 (buf0 0 ||| (u8shr cmd 1 ||| 0x80)) with
    | none => none
    | some b1 => afterFirst N b1 (u8shl cmd 7) rest

/-- Shift-amount check for the main loop of `format_command` /
`format_data`: at `byte_index = idx` the loop applies the `u8` shift
amounts `shift`, `shift + 1`, `7 - shift` and `7 - shift` with
`shift = idx % 8`.  Only `shift + 1` (in `byte >> (shift + 1)`,
lib.rs lines 157 and 211) can reach the bit width 8, which happens exactly
when `idx % 8 = 7`; such a shift overflows and panics under debug
assertions. -/
def loopShiftsOk : List Nat → Nat → Bool
  | [], _ => true
  | _ :: rest, idx => decide (idx % 8 + 1 < 8) && loopShiftsOk rest (idx + 1)

/-- Whether every bit-shift amount applied to a `u8` during one run of
`format_command` / `format_data` on `input` stays below 8.  The first-byte
shifts (`cmd >> 1`, `cmd << 7`) and the flush/realign shifts
(`7 - byte_index % 8`) are always below 8; only the main loop's
`byte >> (shift + 1)` can overflow. -/
def formatShiftsOk (input : List Nat) : Bool :=
  match input with
  | [] => true
  | _ :: rest => loopShiftsOk rest 1

/-- Rust `slice.chunks(k)`: consecutive sub-slices of length `k`, the last
possibly shorter.  The list length serves as fuel, which suffices whenever
`k ≥ 1`; the drivers always use `k = N * 8 / 9` (`chunks(0)` panics in
Rust and is never reached for the `N ≥ 8` capacities in scope). -/
def chunksGo : Nat → Nat → List Nat → List (List Nat)
  | _, _, [] => []
  | 0, _, _ :: _ => []
  | fuel + 1, k, x :: xs => (x :: xs).take k :: chunksGo fuel k ((x :: xs).drop k)

/-- The chunk decomposition `slice.chunks(chunk_size)` used by
`send_commands` / `send_data` (blocking.rs lines 69-71 and 97-101). -/
def listChunks (k : Nat) (l : List Nat) : List (List Nat) := chunksGo l.length k l

/-- One framed transport write issued by the chunked transmitter: either a
write through the transport's `send_commands` or through its `send_data`,
carrying the framed bytes. -/
inductive Wire
  | cmdWrite (bytes : List Nat)
  | dataWrite (bytes : List Nat)
deriving DecidableEq

/-- Frame every chunk with `format_data`, as the `for chunk in iter` loop
of `send_commands` does for the chunks after the first (blocking.rs lines
80-83, async.rs lines 80-85); `none` when a framing call panics. -/
def dataWrites (N : Nat) : List (List Nat) → Option (List Wire)
  | [] => some []
  | c :: cs =>
    match formatData c N with
    | none => none
    | some d =>
      match dataWrites N cs with
      | none => none
      | some ws => some (Wire.dataWrite d :: ws)

/-- The sequence of framed transport writes produced by the blocking and
async `send_commands` on the `DataFormat::U8` path (blocking.rs lines
64-92, async.rs lines 65-95), assuming every transport write succeeds: the
input is split into chunks of `N * 8 / 9` raw bytes, the first chunk is
framed with `format_command` and written through the transport's command
write, and every following chunk is framed with `format_data` and written
through the transport's data write.  `none` models a panic inside a
framing call, which aborts the dispatch. -/
def sendCommandsWrites (N : Nat) (bytes : List Nat) : Option (List Wire) :=
  match listChunks (N * 8 / 9) bytes with
  | [] => some []
  | c0 :: rest =>
    match formatCommand c0 N with
    | none => none
    | some f0 =>
      match dataWrites N rest with
      | none => none
      | some ws => some (Wire.cmdWrite f0 :: ws)

/-- Possible outcomes of a chunked send against a transport with injected
write results: all chunks written and `Ok(())` returned, the error of the
first failing write returned verbatim, or a panic inside a framing call. -/
inductive Outcome (ε : Type)
  | ok
  | err (e : ε)
  | panicked
deriving DecidableEq

/-- The chunk loop of `send_data` over `DataFormat::U8` (blocking.rs lines
94-107, async.rs lines 97-110) against a transport whose i-th write returns
`res i`: every chunk is framed with `format_data` and written in order; the
`?` operator aborts on the first failing write.  Returns the framed chunks
successfully written, in order, and the outcome; the failing write's frame
is not recorded as written. -/
def sendGo {ε : Type} (N : Nat) (res : Nat → Except ε Unit) :
    List (List Nat) → Nat → List (List Nat) × Outcome ε
  | [], _ => ([], .ok)
  | c :: cs, i =>
    match formatData c N with
    | none => ([], .panicked)
    | some d =>
      match res i with
      | .error e => ([], .err e)
      | .ok _ =>
        let r := sendGo N res cs (i + 1)
        (d :: r.1, r.2)

/-- The full `send_data` chunk loop: chunks of `N * 8 / 9` raw bytes,
write index starting at 0. -/
def sendDataTrace {ε : Type} (N : Nat) (bytes : List Nat)
    (res : Nat → Except ε Unit) : List (List Nat) × Outcome ε :=
  sendGo N res (listChunks (N * 8 / 9) bytes) 0

/-! ### Basic lemmas about single writes -/

theorem wr_isSome_iff (N : Nat) (b : Nat → Nat) (i v : Nat) :
    (wr N b i v).isSome ↔ i < N := by
  unfold wr
  by_cases h : i < N <;> simp [h]

theorem wr_eq_some (N : Nat) (b : Nat → Nat) (i v : Nat) (h : i < N) :
    wr N b i v = some (fun j => if j = i then v else b j) := by
  unfold wr
  simp [h]

theorem wr_mono {N M : Nat} {b b2 : Nat → Nat} {i v : Nat} (h : N ≤ M)
    (hw : wr N b i v = some b2) : wr M b i v = some b2 := by
  unfold wr at hw ⊢
  by_cases hi : i < N
  · simp [hi] at hw
    simp [Nat.lt_of_lt_of_le hi h, hw]
  · simp [hi] at hw

/-- The framing bit the encoder ORs into the physical byte at index `idx`:
bit `7 - idx % 8` of `u8shl 1 (7 - idx % 8)` is set. -/
theorem u8shl_one_testBit (s : Nat) (hs : s < 8) :
    (u8shl 1 (7 - s)).testBit (7 - s) = true := by
  unfold u8shl
  have h1 : (7 - s) % 8 = 7 - s := Nat.mod_eq_of_lt (by omega)
  have h2 : (1 % 256) <<< (7 - s) = 2 ^ (7 - s) := by
    rw [Nat.shiftLeft_eq]; omega
  have h3 : (2 : Nat) ^ (7 - s) ≤ 128 := by
    calc (2 : Nat) ^ (7 - s) ≤ 2 ^ 7 := Nat.pow_le_pow_right (by omega) (by omega)
    _ = 128 := by norm_num
  rw [h1, h2, Nat.mod_eq_of_lt (by omega)]
  exact Nat.testBit_two_pow_self

/-! ### The main loop: index evolution, bounds, buffer footprint -/

theorem formatLoop_isSome_iff (N : Nat) (rest : List Nat) (b : Nat → Nat)
    (carry idx : Nat) :
    (formatLoop N rest b carry idx).isSome ↔ (rest = [] ∨ idx + rest.length ≤ N) := by
  induction rest generalizing b carry idx with
  | nil => simp [formatLoop]
  | cons byte rest ih =>
    by_cases hi : idx < N
    · rw [formatLoop, wr_eq_some N b idx _ hi]
      simp only [ih]
      constructor
      · rintro (h | h)
        · subst h; right; simpa using hi
        · right; simp at h ⊢; omega
      · rintro (h | h)
        · exact absurd h (List.cons_ne_nil byte rest)
        · simp at h; by_cases hr : rest = []
          · exact Or.inl hr
          · right; omega
    · rw [formatLoop]
      unfold wr
      simp only [hi, if_false]
      simp only [Option.isSome_none, Bool.false_eq_true, false_iff]
      push_neg
      refine ⟨List.cons_ne_nil byte rest, ?_⟩
      simp; omega

theorem formatLoop_spec (N : Nat) (rest : List Nat) (b : Nat → Nat)
    (carry idx : Nat) {b2 : Nat → Nat} {carry2 idx2 : Nat}
    (h : formatLoop N rest b carry idx = some (b2, carry2, idx2)) :
    idx2 = idx + rest.length ∧
      (∀ j, j < idx → b2 j = b j) ∧
      (∀ j, idx2 ≤ j → b2 j = b j) ∧
      (∀ j, idx ≤ j → j < idx2 → (b2 j).testBit (7 - j % 8) = true) := by
  induction rest generalizing b carry idx with
  | nil =>
    rw [formatLoop] at h
    simp only [Option.some.injEq, Prod.mk.injEq] at h
    obtain ⟨hb, _, hi⟩ := h
    subst hb; subst hi
    exact ⟨by simp, fun j _ => rfl, fun j _ => rfl, fun j h1 h2 => absurd h2 (by omega)⟩
  | cons byte rest ih =>
    rw [formatLoop] at h
    by_cases hi : idx < N
    · rw [wr_eq_some N b idx _ hi] at h
      obtain ⟨hlen, hlow, hhigh, hbits⟩ := ih _ _ _ h
      refine ⟨by simp [hlen]; omega, ?_, ?_, ?_⟩
      · intro j hj
        rw [hlow j (by omega)]
        simp [Nat.ne_of_lt hj]
      · intro j hj
        rw [hhigh j hj]
        have : j ≠ idx := by omega
        simp [this]
      · intro j h1 h2
        rcases Nat.eq_or_lt_of_le h1 with heq | hlt
        · have hj : j = idx := heq.symm
          subst hj
          rw [hlow j (by omega)]
          simp only [if_pos rfl, if_true, eq_self_iff_true]
          rw [Nat.testBit_or]
          rw [Nat.testBit_or, Nat.testBit_or]
          rw [u8shl_one_testBit (j % 8) (Nat.mod_lt _ (by omega))]
          simp
        · exact hbits j hlt h2
    · unfold wr at h
      simp [hi] at h

theorem formatLoop_mono {N M : Nat} (h : N ≤ M) (rest : List Nat)
    (b : Nat → Nat) (carry idx : Nat) {out : (Nat → Nat) × Nat × Nat}
    (hl : formatLoop N rest b carry idx = some out) :
    formatLoop M rest b carry idx = some out := by
  induction rest generalizing b carry idx with
  | nil => rw [formatLoop] at hl ⊢; exact hl
  | cons byte rest ih =>
    rw [formatLoop] at hl ⊢
    cases hw : wr N b idx
        (b idx ||| (u8shr carry (idx % 8) ||| u8shr byte (idx % 8 + 1) |||
          u8shl 1 (7 - idx % 8))) with
    | none => rw [hw] at hl; exact absurd hl (by simp)
    | some b2 =>
      rw [hw] at hl
      rw [wr_mono h hw]
      exact ih _ _ _ hl

/-! ### Arithmetic of the realignment padding `(8 - idx % 8) % 8` -/

theorem pad_eq_zero {idx : Nat} (h : idx % 8 = 0) : (8 - idx % 8) % 8 = 0 := by
  rw [h]

theorem pad_eq {idx : Nat} (h : idx % 8 ≠ 0) : (8 - idx % 8) % 8 = 8 - idx % 8 :=
  Nat.mod_eq_of_lt (by omega)

theorem pad_lt (idx : Nat) : (8 - idx % 8) % 8 < 8 := Nat.mod_lt _ (by omega)

/-- Stepping one NOP write forward preserves the realignment target. -/
theorem pad_succ_sum {idx : Nat} (h0 : idx % 8 ≠ 0) :
    idx + 1 + (8 - (idx + 1) % 8) % 8 = idx + (8 - idx % 8) % 8 := by
  by_cases h7 : idx % 8 = 7
  · have h1 : (idx + 1) % 8 = 0 := by omega
    rw [h1, pad_eq h0, h7]
  · have h1 : (idx + 1) % 8 = idx % 8 + 1 := by omega
    rw [h1, pad_eq h0, Nat.mod_eq_of_lt (by omega)]
    omega

theorem pad_succ_le {idx fuel : Nat} (h0 : idx % 8 ≠ 0)
    (hf : (8 - idx % 8) % 8 ≤ fuel + 1) : (8 - (idx + 1) % 8) % 8 ≤ fuel := by
  by_cases h7 : idx % 8 = 7
  · have h1 : (idx + 1) % 8 = 0 := by omega
    rw [h1]
    omega
  · have h1 : (idx + 1) % 8 = idx % 8 + 1 := by omega
    rw [pad_eq h0] at hf
    rw [h1, Nat.mod_eq_of_lt (by omega)]
    omega

/-! ### The NOP realignment loop -/

theorem nopFill_isSome_iff (N fuel : Nat) (b : Nat → Nat) (idx : Nat)
    (hfuel : (8 - idx % 8) % 8 ≤ fuel) :
    (nopFill N fuel b idx).isSome ↔ (idx % 8 = 0 ∨ idx + (8 - idx % 8) % 8 ≤ N) := by
  induction fuel generalizing b idx with
  | zero =>
    have h0 : idx % 8 = 0 := by
      by_contra hc
      rw [pad_eq hc] at hfuel
      omega
    simp [nopFill, h0]
  | succ fuel ih =>
    by_cases h0 : idx % 8 = 0
    · simp [nopFill, h0]
    · rw [nopFill]
      simp only [h0, if_false]
      have e1 := pad_eq h0
      have e2 := pad_succ_sum h0
      by_cases hi : idx < N
      · rw [wr_eq_some N b idx _ hi]
        rw [ih _ _ (pad_succ_le h0 hfuel)]
        constructor
        · rintro (h | h)
          · have h7 : idx % 8 = 7 := by omega
            right; omega
          · right; omega
        · rintro (h | h)
          · exact h.elim
          · right; omega
      · unfold wr
        simp only [hi, if_false, Option.isSome_none, Bool.false_eq_true, false_iff]
        push_neg
        exact ⟨fun hf => hf, by omega⟩

theorem nopFill_spec (N fuel : Nat) (b : Nat → Nat) (idx : Nat)
    {b2 : Nat → Nat} {idx2 : Nat}
    (hfuel : (8 - idx % 8) % 8 ≤ fuel)
    (h : nopFill N fuel b idx = some (b2, idx2)) :
    idx2 = idx + (8 - idx % 8) % 8 ∧
      (∀ j, j < idx → b2 j = b j) ∧
      (∀ j, idx2 ≤ j → b2 j = b j) ∧
      (∀ j, idx ≤ j → j < idx2 → (b2 j).testBit (7 - j % 8) = true) := by
  induction fuel generalizing b idx with
  | zero =>
    have h0 : idx % 8 = 0 := by
      by_contra hc
      rw [pad_eq hc] at hfuel
      omega
    rw [nopFill] at h
    simp only [Option.some.injEq, Prod.mk.injEq] at h
    obtain ⟨hb, hi⟩ := h
    subst hb; subst hi
    rw [pad_eq_zero h0]
    exact ⟨by omega, fun j _ => rfl, fun j _ => rfl, fun j h1 h2 => absurd h2 (by omega)⟩
  | succ fuel ih =>
    rw [nopFill] at h
    by_cases h0 : idx % 8 = 0
    · simp only [h0, if_true] at h
      simp only [Option.some.injEq, Prod.mk.injEq] at h
      obtain ⟨hb, hi⟩ := h
      subst hb; subst hi
      rw [pad_eq_zero h0]
      exact ⟨by omega, fun j _ => rfl, fun j _ => rfl,
        fun j h1 h2 => absurd h2 (by omega)⟩
    · simp only [h0, if_false] at h
      by_cases hi : idx < N
      · rw [wr_eq_some N b idx _ hi] at h
        obtain ⟨hlen, hlow, hhigh, hbits⟩ := ih _ _ (pad_succ_le h0 hfuel) h
        have e2 := pad_succ_sum h0
        refine ⟨by omega, ?_, ?_, ?_⟩
        · intro j hj
          rw [hlow j (by omega)]
          simp [Nat.ne_of_lt hj]
        · intro j hj
          rw [hhigh j hj]
          have : j ≠ idx := by omega
          simp [this]
        · intro j h1 h2
          rcases Nat.eq_or_lt_of_le h1 with heq | hlt
          · have hj : j = idx := heq.symm
            subst hj
            rw [hlow j (by omega)]
            simp only [if_pos rfl, if_true, eq_self_iff_true]
            exact u8shl_one_testBit (j % 8) (Nat.mod_lt _ (by omega))
          · exact hbits j hlt h2
      · unfold wr at h
        simp [hi] at h

theorem nopFill_mono {N M : Nat} (h : N ≤ M) (fuel : Nat) (b : Nat → Nat)
    (idx : Nat) {out : (Nat → Nat) × Nat}
    (hf : nopFill N fuel b idx = some out) :
    nopFill M fuel b idx = some out := by
  induction fuel generalizing b idx with
  | zero => rw [nopFill] at hf ⊢; exact hf
  | succ fuel ih =>
    rw [nopFill] at hf ⊢
    by_cases h0 : idx % 8 = 0
    · simpa [h0] using hf
    · simp only [h0, if_false] at hf ⊢
      cases hw : wr N b idx (u8shl 1 (7 - idx % 8)) with
      | none => rw [hw] at hf; exact absurd hf (by simp)
      | some b2 =>
        rw [hw] at hf
        rw [wr_mono h hw]
        exact ih _ _ hf

/-! ### The flush-and-realign tail -/

theorem formatFinish_isSome_iff (N : Nat) (b : Nat → Nat) (carry idx : Nat) :
    (formatFinish N b carry idx).isSome ↔
      (idx % 8 = 0 ∨ idx + (8 - idx % 8) % 8 ≤ N) := by
  unfold formatFinish
  by_cases h0 : idx % 8 = 0
  · simp [h0]
  · simp only [h0, if_false]
    have e1 := pad_eq h0
    have e2 := pad_succ_sum h0
    by_cases hi : idx < N
    · rw [wr_eq_some N b idx _ hi]
      rw [nopFill_isSome_iff N 8 _ _ (le_of_lt (pad_lt _))]
      constructor
      · rintro (h | h)
        · have h7 : idx % 8 = 7 := by omega
          right; omega
        · right; omega
      · rintro (h | h)
        · exact h.elim
        · right; omega
    · unfold wr
      simp only [hi, if_false, Option.isSome_none, Bool.false_eq_true, false_iff]
      push_neg
      exact ⟨fun hf => hf, by omega⟩

theorem formatFinish_spec (N : Nat) (b : Nat → Nat) (carry idx : Nat)
    {b2 : Nat → Nat} {idx2 : Nat}
    (h : formatFinish N b carry idx = some (b2, idx2)) :
    idx2 = idx + (8 - idx % 8) % 8 ∧
      (∀ j, j < idx → b2 j = b j) ∧
      (∀ j, idx2 ≤ j → b2 j = b j) ∧
      (∀ j, idx ≤ j → j < idx2 → (b2 j).testBit (7 - j % 8) = true) := by
  unfold formatFinish at h
  by_cases h0 : idx % 8 = 0
  · simp only [h0, if_true] at h
    simp only [Option.some.injEq, Prod.mk.injEq] at h
    obtain ⟨hb, hi⟩ := h
    subst hb; subst hi
    rw [pad_eq_zero h0]
    exact ⟨by omega, fun j _ => rfl, fun j _ => rfl,
      fun j h1 h2 => absurd h2 (by omega)⟩
  · simp only [h0, if_false] at h
    by_cases hi : idx < N
    · rw [wr_eq_some N b idx _ hi] at h
      obtain ⟨hlen, hlow, hhigh, hbits⟩ :=
        nopFill_spec N 8 _ _ (le_of_lt (pad_lt _)) h
      have e2 := pad_succ_sum h0
      refine ⟨by omega, ?_, ?_, ?_⟩
      · intro j hj
        rw [hlow j (by omega)]
        simp [Nat.ne_of_lt hj]
      · intro j hj
        rw [hhigh j hj]
        have : j ≠ idx := by omega
        simp [this]
      · intro j h1 h2
        rcases Nat.eq_or_lt_of_le h1 with heq | hlt
        · have hj : j = idx := heq.symm
          subst hj
          rw [hlow j (by omega)]
          simp only [if_pos rfl, if_true, eq_self_iff_true]
          rw [Nat.testBit_or]
          rw [u8shl_one_testBit (j % 8) (Nat.mod_lt _ (by omega))]
          simp
        · exact hbits j hlt h2
    · unfold wr at h
      simp [hi] at h

theorem formatFinish_mono {N M : Nat} (h : N ≤ M) (b : Nat → Nat)
    (carry idx : Nat) {out : (Nat → Nat) × Nat}
    (hf : formatFinish N b carry idx = some out) :
    formatFinish M b carry idx = some out := by
  unfold formatFinish at hf ⊢
  by_cases h0 : idx % 8 = 0
  · simpa [h0] using hf
  · simp only [h0, if_false] at hf ⊢
    cases hw : wr N b idx (carry ||| u8shl 1 (7 - idx % 8)) with
    | none => rw [hw] at hf; exact absurd hf (by simp)
    | some b2 =>
      rw [hw] at hf
      rw [wr_mono h hw]
      exact nopFill_mono h 8 _ _ hf

/-! ### The shared tail of the two encoders -/

theorem afterFirst_loop_none {N : Nat} {b1 : Nat → Nat} {carry : Nat}
    {rest : List Nat} (hl : formatLoop N rest b1 carry 1 = none) :
    afterFirst N b1 carry rest = none := by
  unfold afterFirst
  rw [hl]

theorem afterFirst_loop_some {N : Nat} {b1 : Nat → Nat} {carry : Nat}
    {rest : List Nat} {b2 : Nat → Nat} {carry2 idx2 : Nat}
    (hl : formatLoop N rest b1 carry 1 = some (b2, carry2, idx2)) :
    afterFirst N b1 carry rest =
      match formatFinish N b2 carry2 idx2 with
      | none => none
      | some (b4, idx4) => some ((List.range idx4).map b4) := by
  unfold afterFirst
  rw [hl]

theorem afterFirst_isSome_iff (N : Nat) (b1 : Nat → Nat) (carry : Nat)
    (rest : List Nat) :
    (afterFirst N b1 carry rest).isSome ↔
      ((rest = [] ∨ 1 + rest.length ≤ N) ∧
        ((1 + rest.length) % 8 = 0 ∨
          (1 + rest.length) + (8 - (1 + rest.length) % 8) % 8 ≤ N)) := by
  cases hl : formatLoop N rest b1 carry 1 with
  | none =>
    have hiff := formatLoop_isSome_iff N rest b1 carry 1
    rw [hl] at hiff
    simp only [Option.isSome_none, Bool.false_eq_true, false_iff] at hiff
    rw [afterFirst_loop_none hl]
    simp only [Option.isSome_none, Bool.false_eq_true, false_iff]
    intro hc
    exact hiff hc.1
  | some o =>
    obtain ⟨b2, carry2, idx2⟩ := o
    obtain ⟨hlen, -, -, -⟩ := formatLoop_spec N rest b1 carry 1 hl
    have hsome : (rest = [] ∨ 1 + rest.length ≤ N) := by
      have hiff := formatLoop_isSome_iff N rest b1 carry 1
      rw [hl] at hiff
      simpa using hiff.mp (by simp)
    rw [afterFirst_loop_some hl]
    cases hf : formatFinish N b2 carry2 idx2 with
    | none =>
      have hiff := formatFinish_isSome_iff N b2 carry2 idx2
      rw [hf] at hiff
      simp only [Option.isSome_none, Bool.false_eq_true, false_iff] at hiff
      rw [hlen] at hiff
      simp only [Option.isSome_none, Bool.false_eq_true, false_iff]
      intro hc
      exact hiff hc.2
    | some o2 =>
      obtain ⟨b4, idx4⟩ := o2
      have hiff := formatFinish_isSome_iff N b2 carry2 idx2
      rw [hf] at hiff
      simp only [Option.isSome_some, true_iff] at hiff
      rw [hlen] at hiff
      simp only [Option.isSome_some, true_iff]
      exact ⟨hsome, hiff⟩

theorem afterFirst_spec (N : Nat) (b1 : Nat → Nat) (carry : Nat)
    (rest : List Nat) {out : List Nat}
    (h : afterFirst N b1 carry rest = some out) :
    out.length = (1 + rest.length) + (8 - (1 + rest.length) % 8) % 8 ∧
      out[0]? = some (b1 0) ∧
      (∀ i x, out[i]? = some x → 1 ≤ i → x.testBit (7 - i % 8) = true) := by
  cases hl : formatLoop N rest b1 carry 1 with
  | none => rw [afterFirst_loop_none hl] at h; exact absurd h (by simp)
  | some o =>
    obtain ⟨b2, carry2, idx2⟩ := o
    rw [afterFirst_loop_some hl] at h
    obtain ⟨hlen, hllow, -, hlbits⟩ := formatLoop_spec N rest b1 carry 1 hl
    cases hf : formatFinish N b2 carry2 idx2 with
    | none => rw [hf] at h; exact absurd h (by simp)
    | some o2 =>
      obtain ⟨b4, idx4⟩ := o2
      rw [hf] at h
      obtain ⟨hflen, hflow, -, hfbits⟩ := formatFinish_spec N b2 carry2 idx2 hf
      simp only [Option.some.injEq] at h
      subst h
      have hidx4 : idx4 = (1 + rest.length) + (8 - (1 + rest.length) % 8) % 8 := by
        rw [hflen, hlen]
      have hpos : 0 < idx4 := by omega
      refine ⟨by simp [hidx4], ?_, ?_⟩
      · have h0 : (List.range idx4)[0]? = some 0 :=
          List.getElem?_range hpos
        rw [List.getElem?_map, h0]
        simp only [Option.map_some']
        have e1 : b4 0 = b2 0 := hflow 0 (by omega)
        have e2 : b2 0 = b1 0 := hllow 0 (by omega)
        rw [e1, e2]
      · intro i x hx hi
        rw [List.getElem?_map] at hx
        by_cases hlt : i < idx4
        · rw [List.getElem?_range hlt] at hx
          simp only [Option.map_some', Option.some.injEq] at hx
          subst hx
          by_cases h2 : i < idx2
          · have e1 : b4 i = b2 i := hflow i h2
            rw [e1]
            exact hlbits i hi h2
          · exact hfbits i (by omega) hlt
        · rw [List.getElem?_eq_none (by simpa using hlt)] at hx
          exact absurd hx (by simp)

theorem afterFirst_mono {N M : Nat} (h : N ≤ M) (b1 : Nat → Nat)
    (carry : Nat) (rest : List Nat) {out : List Nat}
    (ha : afterFirst N b1 carry rest = some out) :
    afterFirst M b1 carry rest = some out := by
  cases hl : formatLoop N rest b1 carry 1 with
  | none => rw [afterFirst_loop_none hl] at ha; exact absurd ha (by simp)
  | some o =>
    obtain ⟨b2, carry2, idx2⟩ := o
    rw [afterFirst_loop_some hl] at ha
    rw [afterFirst_loop_some (formatLoop_mono h rest b1 carry 1 hl)]
    cases hf : formatFinish N b2 carry2 idx2 with
    | none => rw [hf] at ha; exact absurd ha (by simp)
    | some o2 =>
      rw [hf] at ha
      rw [formatFinish_mono h b2 carry2 idx2 hf]
      exact ha

/-! ### Top-level characterisation of the two encoders -/

theorem formatCommand_nil (N : Nat) : formatCommand [] N = some [] := rfl

theorem formatData_nil (N : Nat) : formatData [] N = some [] := rfl

theorem formatCommand_cons (cmd : Nat) (rest : List Nat) (N : Nat)
    (h : 0 < N) :
    formatCommand (cmd :: rest) N =
      afterFirst N (fun j => if j = 0 then u8shr cmd 1 else 0)
        (u8shl cmd 7) rest := by
  unfold formatCommand
  dsimp only
  rw [wr_eq_some _ _ _ _ h]
  have hb : (fun j => if j = 0 then (fun _ : Nat => 0) 0 ||| u8shr cmd 1
      else (fun _ : Nat => 0) j) = (fun j => if j = 0 then u8shr cmd 1 else 0) := by
    funext j
    by_cases hj : j = 0 <;> simp [hj]
  rw [hb]

theorem formatData_cons (cmd : Nat) (rest : List Nat) (N : Nat)
    (h : 0 < N) :
    formatData (cmd :: rest) N =
      afterFirst N (fun j => if j = 0 then u8shr cmd 1 ||| 0x80 else 0)
        (u8shl cmd 7) rest := by
  unfold formatData
  dsimp only
  rw [wr_eq_some _ _ _ _ h]
  have hb : (fun j => if j = 0 then (fun _ : Nat => 0) 0 ||| (u8shr cmd 1 ||| 0x80)
      else (fun _ : Nat => 0) j) =
      (fun j => if j = 0 then u8shr cmd 1 ||| 0x80 else 0) := by
    funext j
    by_cases hj : j = 0 <;> simp [hj]
  rw [hb]

theorem formatCommand_cons_zero (cmd : Nat) (rest : List Nat) :
    formatCommand (cmd :: rest) 0 = none := rfl

theorem formatData_cons_zero (cmd : Nat) (rest : List Nat) :
    formatData (cmd :: rest) 0 = none := rfl

/-- The encoder succeeds on a non-empty input exactly when the realigned
output length `len + (8 - len % 8) % 8` (the length of `len` rounded up to
the next multiple of 8) fits in the buffer. -/
theorem formatCommand_isSome_iff (cmd : Nat) (rest : List Nat) (N : Nat) :
    (formatCommand (cmd :: rest) N).isSome ↔
      (1 + rest.length) + (8 - (1 + rest.length) % 8) % 8 ≤ N := by
  by_cases h : 0 < N
  · rw [formatCommand_cons _ _ _ h, afterFirst_isSome_iff]
    constructor
    · rintro ⟨h1, h2⟩
      rcases h2 with h2 | h2
      · rw [pad_eq_zero h2]
        rcases h1 with h1 | h1
        · subst h1; simp at h2
        · omega
      · exact h2
    · intro hle
      have hp := pad_lt (1 + rest.length)
      exact ⟨Or.inr (by omega), Or.inr hle⟩
  · have hN : N = 0 := by omega
    subst hN
    rw [formatCommand_cons_zero]
    simp only [Option.isSome_none, Bool.false_eq_true, false_iff]
    omega

theorem formatData_isSome_iff (cmd : Nat) (rest : List Nat) (N : Nat) :
    (formatData (cmd :: rest) N).isSome ↔
      (1 + rest.length) + (8 - (1 + rest.length) % 8) % 8 ≤ N := by
  by_cases h : 0 < N
  · rw [formatData_cons _ _ _ h, afterFirst_isSome_iff]
    constructor
    · rintro ⟨h1, h2⟩
      rcases h2 with h2 | h2
      · rw [pad_eq_zero h2]
        rcases h1 with h1 | h1
        · subst h1; simp at h2
        · omega
      · exact h2
    · intro hle
      have hp := pad_lt (1 + rest.length)
      exact ⟨Or.inr (by omega), Or.inr hle⟩
  · have hN : N = 0 := by omega
    subst hN
    rw [formatData_cons_zero]
    simp only [Option.isSome_none, Bool.false_eq_true, false_iff]
    omega

theorem formatCommand_spec {cmd : Nat} {rest : List Nat} {N : Nat}
    {out : List Nat} (h : formatCommand (cmd :: rest) N = some out) :
    out.length = (1 + rest.length) + (8 - (1 + rest.length) % 8) % 8 ∧
      out[0]? = some (u8shr cmd 1) ∧
      (∀ i x, out[i]? = some x → 1 ≤ i → x.testBit (7 - i % 8) = true) := by
  have hN : 0 < N := by
    by_contra hc
    have : N = 0 := by omega
    subst this
    rw [formatCommand_cons_zero] at h
    exact absurd h (by simp)
  rw [formatCommand_cons _ _ _ hN] at h
  obtain ⟨hlen, h0, hbits⟩ := afterFirst_spec _ _ _ _ h
  refine ⟨hlen, ?_, hbits⟩
  rw [h0]
  simp

theorem formatData_spec {cmd : Nat} {rest : List Nat} {N : Nat}
    {out : List Nat} (h : formatData (cmd :: rest) N = some out) :
    out.length = (1 + rest.length) + (8 - (1 + rest.length) % 8) % 8 ∧
      out[0]? = some (u8shr cmd 1 ||| 0x80) ∧
      (∀ i x, out[i]? = some x → 1 ≤ i → x.testBit (7 - i % 8) = true) := by
  have hN : 0 < N := by
    by_contra hc
    have : N = 0 := by omega
    subst this
    rw [formatData_cons_zero] at h
    exact absurd h (by simp)
  rw [formatData_cons _ _ _ hN] at h
  obtain ⟨hlen, h0, hbits⟩ := afterFirst_spec _ _ _ _ h
  refine ⟨hlen, ?_, hbits⟩
  rw [h0]
  simp

theorem formatCommand_mono {N M : Nat} (h : N ≤ M) (input : List Nat)
    {out : List Nat} (hc : formatCommand input N = some out) :
    formatCommand input M = some out := by
  cases input with
  | nil =>
    rw [formatCommand_nil] at hc
    rw [formatCommand_nil]
    exact hc
  | cons cmd rest =>
    have hN : 0 < N := by
      by_contra hcN
      have : N = 0 := by omega
      subst this
      rw [formatCommand_cons_zero] at hc
      exact absurd hc (by simp)
    rw [formatCommand_cons _ _ _ hN] at hc
    rw [formatCommand_cons _ _ _ (by omega)]
    exact afterFirst_mono h _ _ _ hc

/-! ### Agreement off index 0: the two encoders differ only in byte 0 -/

theorem formatLoop_agree {N : Nat} {rest : List Nat} {b b' : Nat → Nat}
    {carry idx : Nat} {b2 : Nat → Nat} {c2 i2 : Nat}
    (hidx : 1 ≤ idx) (hb : ∀ j, 1 ≤ j → b j = b' j)
    (h : formatLoop N rest b carry idx = some (b2, c2, i2)) :
    ∃ b2', formatLoop N rest b' carry idx = some (b2', c2, i2) ∧
      ∀ j, 1 ≤ j → b2 j = b2' j := by
  induction rest generalizing b b' carry idx with
  | nil =>
    rw [formatLoop] at h
    simp only [Option.some.injEq, Prod.mk.injEq] at h
    obtain ⟨h1, h2, h3⟩ := h
    subst h1; subst h2; subst h3
    exact ⟨b', by rw [formatLoop], hb⟩
  | cons byte rest ih =>
    rw [formatLoop] at h
    by_cases hi : idx < N
    · rw [wr_eq_some N b idx _ hi] at h
      have hv : b idx ||| (u8shr carry (idx % 8) ||| u8shr byte (idx % 8 + 1) |||
          u8shl 1 (7 - idx % 8)) =
          b' idx ||| (u8shr carry (idx % 8) ||| u8shr byte (idx % 8 + 1) |||
          u8shl 1 (7 - idx % 8)) := by
        rw [hb idx hidx]
      have hb2 : ∀ j, 1 ≤ j →
          (fun j => if j = idx then b idx ||| (u8shr carry (idx % 8) |||
            u8shr byte (idx % 8 + 1) ||| u8shl 1 (7 - idx % 8)) else b j) j =
          (fun j => if j = idx then b' idx ||| (u8shr carry (idx % 8) |||
            u8shr byte (idx % 8 + 1) ||| u8shl 1 (7 - idx % 8)) else b' j) j := by
        intro j hj
        by_cases hje : j = idx
        · simp only [hje, if_pos rfl]
          exact hv
        · simp only [hje, if_false]
          exact hb j hj
      obtain ⟨b2', hrun, hagree⟩ := ih (by omega) hb2 h
      refine ⟨b2', ?_, hagree⟩
      rw [formatLoop, wr_eq_some N b' idx _ hi]
      exact hrun
    · unfold wr at h
      simp [hi] at h

theorem nopFill_agree {N fuel : Nat} {b b' : Nat → Nat} {idx : Nat}
    {b2 : Nat → Nat} {i2 : Nat}
    (hidx : 1 ≤ idx) (hb : ∀ j, 1 ≤ j → b j = b' j)
    (h : nopFill N fuel b idx = some (b2, i2)) :
    ∃ b2', nopFill N fuel b' idx = some (b2', i2) ∧
      ∀ j, 1 ≤ j → b2 j = b2' j := by
  induction fuel generalizing b b' idx with
  | zero =>
    rw [nopFill] at h
    simp only [Option.some.injEq, Prod.mk.injEq] at h
    obtain ⟨h1, h2⟩ := h
    subst h1; subst h2
    exact ⟨b', by rw [nopFill], hb⟩
  | succ fuel ih =>
    rw [nopFill] at h
    by_cases h0 : idx % 8 = 0
    · simp only [h0, if_true] at h
      simp only [Option.some.injEq, Prod.mk.injEq] at h
      obtain ⟨h1, h2⟩ := h
      subst h1; subst h2
      rw [nopFill]
      simp only [h0, if_true]
      exact ⟨b', rfl, hb⟩
    · simp only [h0, if_false] at h
      by_cases hi : idx < N
      · rw [wr_eq_some N b idx _ hi] at h
        have hb2 : ∀ j, 1 ≤ j →
            (fun j => if j = idx then u8shl 1 (7 - idx % 8) else b j) j =
            (fun j => if j = idx then u8shl 1 (7 - idx % 8) else b' j) j := by
          intro j hj
          by_cases hje : j = idx
          · simp [hje]
          · simp only [hje, if_false]
            exact hb j hj
        obtain ⟨b2', hrun, hagree⟩ := ih (by omega) hb2 h
        refine ⟨b2', ?_, hagree⟩
        rw [nopFill]
        simp only [h0, if_false]
        rw [wr_eq_some N b' idx _ hi]
        exact hrun
      · unfold wr at h
        simp [hi] at h

theorem formatFinish_agree {N : Nat} {b b' : Nat → Nat} {carry idx : Nat}
    {b2 : Nat → Nat} {i2 : Nat}
    (hidx : 1 ≤ idx) (hb : ∀ j, 1 ≤ j → b j = b' j)
    (h : formatFinish N b carry idx = some (b2, i2)) :
    ∃ b2', formatFinish N b' carry idx = some (b2', i2) ∧
      ∀ j, 1 ≤ j → b2 j = b2' j := by
  unfold formatFinish at h ⊢
  by_cases h0 : idx % 8 = 0
  · simp only [h0, if_true] at h ⊢
    simp only [Option.some.injEq, Prod.mk.injEq] at h
    obtain ⟨h1, h2⟩ := h
    subst h1; subst h2
    exact ⟨b', rfl, hb⟩
  · simp only [h0, if_false] at h ⊢
    by_cases hi : idx < N
    · rw [wr_eq_some N b idx _ hi] at h
      have hb2 : ∀ j, 1 ≤ j →
          (fun j => if j = idx then carry ||| u8shl 1 (7 - idx % 8) else b j) j =
          (fun j => if j = idx then carry ||| u8shl 1 (7 - idx % 8) else b' j) j := by
        intro j hj
        by_cases hje : j = idx
        · simp [hje]
        · simp only [hje, if_false]
          exact hb j hj
      obtain ⟨b2', hrun, hagree⟩ := nopFill_agree (by omega) hb2 h
      refine ⟨b2', ?_, hagree⟩
      rw [wr_eq_some N b' idx _ hi]
      exact hrun
    · unfold wr at h
      simp [hi] at h

/-- The two encoders run the identical tail over buffers that agree
everywhere except index 0: the outputs are identical except at byte 0,
which carries over from the respective first-byte write. -/
theorem afterFirst_agree {N : Nat} {b1 b1' : Nat → Nat} {carry : Nat}
    {rest : List Nat} {out : List Nat}
    (hb : ∀ j, 1 ≤ j → b1 j = b1' j)
    (h : afterFirst N b1 carry rest = some out) :
    ∃ t, out = b1 0 :: t ∧ afterFirst N b1' carry rest = some (b1' 0 :: t) := by
  cases hl : formatLoop N rest b1 carry 1 with
  | none => rw [afterFirst_loop_none hl] at h; exact absurd h (by simp)
  | some o =>
    obtain ⟨b2, carry2, idx2⟩ := o
    rw [afterFirst_loop_some hl] at h
    obtain ⟨hlen, hllow, -, -⟩ := formatLoop_spec N rest b1 carry 1 hl
    obtain ⟨b2', hl', hag2⟩ := formatLoop_agree (by omega) hb hl
    obtain ⟨hlen', hllow', -, -⟩ := formatLoop_spec N rest b1' carry 1 hl'
    cases hf : formatFinish N b2 carry2 idx2 with
    | none => rw [hf] at h; exact absurd h (by simp)
    | some o2 =>
      obtain ⟨b4, idx4⟩ := o2
      rw [hf] at h
      simp only [Option.some.injEq] at h
      subst h
      obtain ⟨hflen, hflow, -, -⟩ := formatFinish_spec N b2 carry2 idx2 hf
      obtain ⟨b4', hf', hag4⟩ := formatFinish_agree (by omega) hag2 hf
      obtain ⟨hflen', hflow', -, -⟩ := formatFinish_spec N b2' carry2 idx2 hf'
      rw [afterFirst_loop_some hl', hf']
      have hpos : 0 < idx4 := by
        have := pad_lt idx2
        omega
      obtain ⟨K, hK⟩ : ∃ K, idx4 = K + 1 := ⟨idx4 - 1, by omega⟩
      subst hK
      rw [List.range_succ_eq_map]
      refine ⟨(List.range K).map (fun x => b4 (x + 1)), ?_, ?_⟩
      · simp only [List.map_cons, List.map_map]
        have e0 : b4 0 = b1 0 := by
          rw [hflow 0 (by omega), hllow 0 (by omega)]
        rw [e0]
        rfl
      · dsimp only
        rw [List.range_succ_eq_map]
        simp only [List.map_cons, List.map_map, Option.some.injEq]
        have e0 : b4' 0 = b1' 0 := by
          rw [hflow' 0 (by omega), hllow' 0 (by omega)]
        rw [e0]
        congr 1
        apply List.map_congr_left
        intro x hx
        simp only [Function.comp_apply]
        exact (hag4 (x + 1) (by omega)).symm

/-! ### Chunk decomposition -/

theorem chunksGo_nil (fuel k : Nat) : chunksGo fuel k [] = [] := by
  cases fuel <;> rfl

theorem chunksGo_fuel_eq (k : Nat) (hk : 1 ≤ k) :
    ∀ fuel fuel2 (l : List Nat), l.length ≤ fuel → l.length ≤ fuel2 →
      chunksGo fuel k l = chunksGo fuel2 k l := by
  intro fuel
  induction fuel with
  | zero =>
    intro fuel2 l hl _
    have : l = [] := List.eq_nil_of_length_eq_zero (by omega)
    subst this
    rw [chunksGo_nil, chunksGo_nil]
  | succ fuel ih =>
    intro fuel2 l hl hl2
    cases l with
    | nil => rw [chunksGo_nil, chunksGo_nil]
    | cons x xs =>
      cases fuel2 with
      | zero => simp at hl2
      | succ fuel2 =>
        rw [chunksGo, chunksGo]
        congr 1
        apply ih
        · simp at hl ⊢
          omega
        · simp at hl2 ⊢
          omega

theorem listChunks_nil (k : Nat) : listChunks k [] = [] := rfl

theorem listChunks_cons (k : Nat) (hk : 1 ≤ k) (x : Nat) (xs : List Nat) :
    listChunks k (x :: xs) =
      (x :: xs).take k :: listChunks k ((x :: xs).drop k) := by
  unfold listChunks
  rw [List.length_cons, chunksGo]
  congr 1
  apply chunksGo_fuel_eq k hk
  · simp
    omega
  · exact Nat.le_refl _

theorem listChunks_join (k : Nat) (hk : 1 ≤ k) (l : List Nat) :
    (listChunks k l).flatten = l := by
  have h : ∀ fuel (l : List Nat), l.length ≤ fuel → (chunksGo fuel k l).flatten = l := by
    intro fuel
    induction fuel with
    | zero =>
      intro l hl
      have : l = [] := List.eq_nil_of_length_eq_zero (by omega)
      subst this
      rfl
    | succ fuel ih =>
      intro l hl
      cases l with
      | nil => rfl
      | cons x xs =>
        rw [chunksGo, List.flatten_cons]
        rw [ih _ (by simp at hl ⊢; omega)]
        exact List.take_append_drop k (x :: xs)
  exact h _ l (Nat.le_refl _)

theorem listChunks_mem_length (k : Nat) (l : List Nat) {c : List Nat}
    (hc : c ∈ listChunks k l) : c.length ≤ k := by
  have h : ∀ fuel (l : List Nat), c ∈ chunksGo fuel k l → c.length ≤ k := by
    intro fuel
    induction fuel with
    | zero =>
      intro l hl
      cases l <;> simp [chunksGo_nil, chunksGo] at hl
    | succ fuel ih =>
      intro l hl
      cases l with
      | nil => simp [chunksGo_nil] at hl
      | cons x xs =>
        rw [chunksGo] at hl
        rcases List.mem_cons.mp hl with h1 | h1
        · subst h1
          simp [List.length_take]
        · exact ih _ h1
  exact h _ l hc

theorem listChunks_length_pos (k : Nat) (l : List Nat) (hl : l ≠ []) :
    listChunks k l ≠ [] := by
  unfold listChunks
  cases l with
  | nil => exact absurd rfl hl
  | cons x xs =>
    rw [List.length_cons, chunksGo]
    exact List.cons_ne_nil _ _

theorem listChunks_two_of_lt (k : Nat) (hk : 1 ≤ k) (l : List Nat)
    (hl : k < l.length) : 1 < (listChunks k l).length := by
  cases l with
  | nil => simp at hl
  | cons x xs =>
    rw [listChunks_cons k hk]
    rw [List.length_cons]
    rw [List.length_cons] at hl
    have hd : (x :: xs).drop k ≠ [] := by
      intro hc
      have h2 := congrArg List.length hc
      rw [List.length_drop, List.length_cons] at h2
      simp only [List.length_nil] at h2
      omega
    have := listChunks_length_pos k _ hd
    have : 0 < (listChunks k ((x :: xs).drop k)).length :=
      List.length_pos.mpr this
    omega

/-- Amended chunk-fit bound: a chunk of at most `N * 8 / 9` raw bytes
always realigns into a capacity that is a multiple of 8. -/
theorem chunk_fits {N len : Nat} (h8 : 8 ≤ N) (hm : N % 8 = 0)
    (hlen : 1 ≤ len) (hle : len ≤ N * 8 / 9) :
    len + (8 - len % 8) % 8 ≤ N := by
  by_cases hr : len % 8 = 0
  · rw [pad_eq_zero hr]
    omega
  · rw [pad_eq hr]
    omega

/-- Realigned lengths are multiples of 8. -/
theorem pad_add_mod (n : Nat) : (n + (8 - n % 8) % 8) % 8 = 0 := by
  by_cases h : n % 8 = 0
  · rw [pad_eq_zero h]
    omega
  · rw [pad_eq h]
    omega

/-- Under a capacity that is a multiple of 8, every chunk the transmitter
produces fits: both encoders succeed on any input of at most `N * 8 / 9`
bytes. -/
theorem format_isSome_of_le {N : Nat} (h8 : 8 ≤ N) (hm : N % 8 = 0)
    (c : List Nat) (hlen : c.length ≤ N * 8 / 9) :
    (formatCommand c N).isSome ∧ (formatData c N).isSome := by
  cases c with
  | nil =>
    rw [formatCommand_nil, formatData_nil]
    exact ⟨rfl, rfl⟩
  | cons x r =>
    rw [List.length_cons] at hlen
    have hfit : (1 + r.length) + (8 - (1 + r.length) % 8) % 8 ≤ N :=
      chunk_fits h8 hm (by omega) (by omega)
    rw [formatCommand_isSome_iff, formatData_isSome_iff]
    exact ⟨hfit, hfit⟩

/-! ### The per-chunk data writes of the dispatcher -/

theorem dataWrites_isSome (N : Nat) (cs : List (List Nat))
    (h : ∀ c ∈ cs, (formatData c N).isSome) : (dataWrites N cs).isSome := by
  induction cs with
  | nil => rw [dataWrites]; rfl
  | cons c cs ih =>
    rw [dataWrites]
    have hc := h c (List.mem_cons_self c cs)
    cases hd : formatData c N with
    | none => rw [hd] at hc; exact absurd hc (by simp)
    | some d =>
      have hcs := ih (fun c2 h2 => h c2 (List.mem_cons_of_mem _ h2))
      cases hds : dataWrites N cs with
      | none => rw [hds] at hcs; exact absurd hcs (by simp)
      | some ws => rfl

theorem dataWrites_length {N : Nat} {cs : List (List Nat)} {ws : List Wire}
    (h : dataWrites N cs = some ws) : ws.length = cs.length := by
  induction cs generalizing ws with
  | nil =>
    rw [dataWrites] at h
    simp only [Option.some.injEq] at h
    subst h
    rfl
  | cons c cs ih =>
    rw [dataWrites] at h
    cases hd : formatData c N with
    | none => rw [hd] at h; exact absurd h (by simp)
    | some d =>
      rw [hd] at h
      cases hds : dataWrites N cs with
      | none => rw [hds] at h; exact absurd h (by simp)
      | some ws2 =>
        rw [hds] at h
        simp only [Option.some.injEq] at h
        subst h
        rw [List.length_cons, List.length_cons, ih hds]

theorem dataWrites_shape {N : Nat} {cs : List (List Nat)} {ws : List Wire}
    (h : dataWrites N cs = some ws) : ∀ w ∈ ws, ∃ f, w = Wire.dataWrite f := by
  induction cs generalizing ws with
  | nil =>
    rw [dataWrites] at h
    simp only [Option.some.injEq] at h
    subst h
    intro w hw
    simp at hw
  | cons c cs ih =>
    rw [dataWrites] at h
    cases hd : formatData c N with
    | none => rw [hd] at h; exact absurd h (by simp)
    | some d =>
      rw [hd] at h
      cases hds : dataWrites N cs with
      | none => rw [hds] at h; exact absurd h (by simp)
      | some ws2 =>
        rw [hds] at h
        simp only [Option.some.injEq] at h
        subst h
        intro w hw
        rcases List.mem_cons.mp hw with h1 | h1
        · exact ⟨d, h1⟩
        · exact ih hds w h1

/-! ### The chunk loop of send_data with injected write results -/

theorem sendGo_spec {ε : Type} (N : Nat) (res : Nat → Except ε Unit) :
    ∀ (chunks : List (List Nat)) (i k : Nat) (e : ε),
      k < chunks.length →
      (∀ j, j < k → res (i + j) = .ok ()) →
      res (i + k) = .error e →
      (chunks.take (k + 1)).all (fun c => (formatData c N).isSome) = true →
      sendGo N res chunks i =
        ((chunks.take k).map (fun c => (formatData c N).getD []), .err e) := by
  intro chunks
  induction chunks with
  | nil =>
    intro i k e hk _ _ _
    simp at hk
  | cons c cs ih =>
    intro i k e hk hok herr henc
    rw [List.take_succ_cons, List.all_cons] at henc
    obtain ⟨hc, hcs⟩ := Bool.and_eq_true_iff.mp henc
    rw [sendGo]
    cases hd : formatData c N with
    | none => rw [hd] at hc; exact absurd hc (by simp)
    | some d =>
      cases k with
      | zero =>
        dsimp only
        have herr0 : res i = Except.error e := by simpa using herr
        rw [herr0]
        simp
      | succ k =>
        dsimp only
        have h0 : res i = .ok () := by
          have := hok 0 (by omega)
          simpa using this
        rw [h0]
        have hrec := ih (i + 1) k e (by simp at hk; omega)
          (fun j hj => by
            have := hok (j + 1) (by omega)
            rw [← this]
            congr 1
            omega)
          (by rw [← herr]; congr 1; omega)
          hcs
        rw [hrec]
        rw [List.take_succ_cons, List.map_cons, hd]
        rfl

/-! ### Claim theorems -/

/-- C1 (code_bug evidence): the round-trip claim says decoding the framed
output reproduces the original payload, but `format_command` is not even
injective: the payloads `[0x01, 0x00]` and `[0x00, 0x00]` produce the same
physical bytes, because the loop applies `bit_carry >> shift` to a carry
that is already positioned, OR-ing the carried payload bit onto the
already-set framing bit.  No decoding procedure can reproduce both
originals from the shared output, so the round-trip property fails on the
code. -/
theorem C1_encoder_not_injective :
    formatCommand [0x01, 0x00] 8 = formatCommand [0x00, 0x00] 8 ∧
      formatCommand [0x01, 0x00] 8 =
        some [0x00, 0x40, 0x20, 0x10, 0x08, 0x04, 0x02, 0x01] := by
  constructor <;> decide

/-- C2: encoding payload `[0x12, 0x34, 0x56]` with `format_command` into a
zeroed buffer of capacity at least 8 returns exactly the 8 physical bytes
`[0x09, 0x4D, 0x2A, 0xD0, 0x08, 0x04, 0x02, 0x01]`. -/
theorem C2_concrete_example (N : Nat) (h : 8 ≤ N) :
    formatCommand [0x12, 0x34, 0x56] N =
      some [0x09, 0x4D, 0x2A, 0xD0, 0x08, 0x04, 0x02, 0x01] :=
  formatCommand_mono h [0x12, 0x34, 0x56] (by decide)

/-- Witness for C2 at the smallest allowed capacity. -/
theorem C2_witness :
    formatCommand [0x12, 0x34, 0x56] 8 =
      some [0x09, 0x4D, 0x2A, 0xD0, 0x08, 0x04, 0x02, 0x01] :=
  C2_concrete_example 8 (by decide)

/-- C3 (counterexample): with buffer capacity `N = 11 ≥ 8`, a chunk of 9
bytes is within the stated bound `floor(N * 8 / 9) = 9`, yet encoding it
writes out of bounds (the realigned output needs 16 bytes): the encoder
panics instead of staying inside the buffer, refuting the claim that
encoding any such chunk never overflows. -/
theorem C3_counterexample :
    8 ≤ 11 ∧ (List.replicate 9 0).length ≤ 11 * 8 / 9 ∧
      formatCommand (List.replicate 9 0) 11 = none := by
  refine ⟨by decide, by decide, by decide⟩

/-- C3 (amended): for every buffer capacity `N ≥ 8` that is a multiple of
8, the transmitter splits input into chunks of at most `floor(N * 8 / 9)`
raw bytes, and encoding any chunk of at most `floor(N * 8 / 9)` bytes with
`format_command` or `format_data` writes only indices strictly below `N`
(the encoders succeed without an out-of-bounds write). -/
theorem C3_chunk_safety (N : Nat) (bytes chunk : List Nat)
    (h8 : 8 ≤ N) (hm : N % 8 = 0) :
    (chunk ∈ listChunks (N * 8 / 9) bytes → chunk.length ≤ N * 8 / 9) ∧
    (chunk.length ≤ N * 8 / 9 →
      (formatCommand chunk N).isSome ∧ (formatData chunk N).isSome) := by
  constructor
  · exact fun hc => listChunks_mem_length _ _ hc
  · exact fun hlen => format_isSome_of_le h8 hm chunk hlen

/-- Witness for the amended C3. -/
theorem C3_witness :
    (([1, 2, 3] : List Nat) ∈ listChunks (8 * 8 / 9) [1, 2, 3, 4, 5, 6, 7, 8] →
      ([1, 2, 3] : List Nat).length ≤ 8 * 8 / 9) ∧
    (([1, 2, 3] : List Nat).length ≤ 8 * 8 / 9 →
      (formatCommand [1, 2, 3] 8).isSome ∧ (formatData [1, 2, 3] 8).isSome) :=
  C3_chunk_safety 8 [1, 2, 3, 4, 5, 6, 7, 8] [1, 2, 3] (by decide) (by decide)

/-- C4 (code_bug evidence): an 8-byte payload satisfies the stated
precondition with `N = 16` (its buffer writes all stay in bounds, so the
encoder completes), yet while processing its 8th byte the loop evaluates
`byte >> (shift + 1)` with `shift = 7`, a `u8` shift by the full bit width
8: the claim that every shift amount stays below 8 (hence that no panic is
reachable) fails — the shift overflows and panics under debug
assertions. -/
theorem C4_shift_overflow :
    formatShiftsOk (List.replicate 8 0) = false ∧
      (formatCommand (List.replicate 8 0) 16).isSome = true := by
  refine ⟨by decide, by decide⟩

/-- C5: whenever the encoders return a sub-slice, its length is 0 for an
empty input, and a positive multiple of 8 bytes for a non-empty input. -/
theorem C5_alignment (input : List Nat) (N : Nat) (out : List Nat)
    (h : formatCommand input N = some out ∨ formatData input N = some out) :
    (input = [] → out = []) ∧
    (input ≠ [] → 0 < out.length ∧ out.length % 8 = 0) := by
  cases input with
  | nil =>
    have hout : out = [] := by
      rcases h with h | h
      · rw [formatCommand_nil] at h
        exact (Option.some.injEq _ _ ▸ h).symm
      · rw [formatData_nil] at h
        exact (Option.some.injEq _ _ ▸ h).symm
    exact ⟨fun _ => hout, fun hc => absurd rfl hc⟩
  | cons c r =>
    refine ⟨fun hc => absurd hc (by simp), fun _ => ?_⟩
    have hlen : out.length = (1 + r.length) + (8 - (1 + r.length) % 8) % 8 := by
      rcases h with h | h
      · exact (formatCommand_spec h).1
      · exact (formatData_spec h).1
    constructor
    · rw [hlen]
      omega
    · rw [hlen]
      exact pad_add_mod (1 + r.length)

/-- Witness for C5 on a one-byte command. -/
theorem C5_witness :
    (([5] : List Nat) = [] → ([2, 192, 32, 16, 8, 4, 2, 1] : List Nat) = []) ∧
    (([5] : List Nat) ≠ [] →
      0 < ([2, 192, 32, 16, 8, 4, 2, 1] : List Nat).length ∧
        ([2, 192, 32, 16, 8, 4, 2, 1] : List Nat).length % 8 = 0) :=
  C5_alignment [5] 8 [2, 192, 32, 16, 8, 4, 2, 1] (Or.inl (by decide))

/-- C6: the top bit of physical byte 0 is 0 exactly for `format_command`
(role Command) and 1 exactly for `format_data` (role Data). -/
theorem C6_first_role_bit (input : List Nat) (N : Nat) :
    (∀ h t, formatCommand input N = some (h :: t) → h.testBit 7 = false) ∧
    (∀ h t, formatData input N = some (h :: t) → h.testBit 7 = true) := by
  constructor
  · intro h t hc
    cases input with
    | nil => rw [formatCommand_nil] at hc; simp at hc
    | cons c r =>
      obtain ⟨-, h0, -⟩ := formatCommand_spec hc
      simp only [List.getElem?_cons_zero, Option.some.injEq] at h0
      rw [h0]
      apply Nat.testBit_lt_two_pow
      unfold u8shr
      have hm : c % 256 < 256 := Nat.mod_lt _ (by omega)
      rw [Nat.shiftRight_eq_div_pow]
      norm_num
      omega
  · intro h t hd
    cases input with
    | nil => rw [formatData_nil] at hd; simp at hd
    | cons c r =>
      obtain ⟨-, h0, -⟩ := formatData_spec hd
      simp only [List.getElem?_cons_zero, Option.some.injEq] at h0
      rw [h0]
      rw [Nat.testBit_or]
      have h128 : Nat.testBit 0x80 7 = true := by decide
      rw [h128]
      simp

/-- Witness for C6 at the reference payload. -/
theorem C6_witness : Nat.testBit 9 7 = false ∧ Nat.testBit 137 7 = true :=
  ⟨(C6_first_role_bit [0x12, 0x34, 0x56] 8).1 9 [77, 42, 208, 8, 4, 2, 1] (by decide),
   (C6_first_role_bit [0x12, 0x34, 0x56] 8).2 137 [77, 42, 208, 8, 4, 2, 1] (by decide)⟩

/-- C7 (counterexample): in the reference output, physical byte 1 (0x4D)
is the byte in which the framing bit of logical unit 1 — a Data unit, not
a trailing filler — falls, yet its top bit is 0, refuting the claim that
the top bit of each physical byte after byte 0 reflects that unit's role
(Data = 1): the framing bit drifts to bit position `7 - i % 8`, it is not
the top bit. -/
theorem C7_counterexample :
    formatCommand [0x12, 0x34, 0x56] 8 =
        some [0x09, 0x4D, 0x2A, 0xD0, 0x08, 0x04, 0x02, 0x01] ∧
      Nat.testBit 0x4D 7 = false := by
  refine ⟨by decide, by decide⟩

/-- C7 (amended): for every physical output position `i ≥ 1`, the framing
bit written there sits at bit `7 - i % 8` (offset `i mod 8` from the top),
and that bit is always set — every unit after the first, trailing fillers
included, is framed as Data. -/
theorem C7_framing_bits (input : List Nat) (N : Nat) (out : List Nat)
    (i x : Nat) (h : formatCommand input N = some out)
    (hx : out[i]? = some x) (hi : 1 ≤ i) :
    x.testBit (7 - i % 8) = true := by
  cases input with
  | nil =>
    rw [formatCommand_nil] at h
    have hout : out = [] := (Option.some.injEq _ _ ▸ h).symm
    subst hout
    simp at hx
  | cons c r =>
    obtain ⟨-, -, hbits⟩ := formatCommand_spec h
    exact hbits i x hx hi

/-- Witness for the amended C7: byte 3 of the reference output (0xD0) has
its framing bit at offset 3. -/
theorem C7_witness : Nat.testBit 0xD0 (7 - 3 % 8) = true :=
  C7_framing_bits [0x12, 0x34, 0x56] 8 [0x09, 0x4D, 0x2A, 0xD0, 0x08, 0x04, 0x02, 0x01]
    3 0xD0 (by decide) (by decide) (by decide)

/-- C8 (counterexample): with capacity `N = 11` and a 10-byte input —
longer than one chunk of `floor(11 * 8 / 9) = 9` bytes — the dispatch does
not issue one write per chunk: framing the first chunk already overruns
the buffer (panics), so no transport write completes at all. -/
theorem C8_counterexample :
    11 * 8 / 9 < (List.replicate 10 0).length ∧
      sendCommandsWrites 11 (List.replicate 10 0) = none := by
  refine ⟨by decide, by decide⟩

/-- C8 (amended): for every capacity `N ≥ 8` that is a multiple of 8 and
every input longer than `floor(N * 8 / 9)` bytes, `send_commands` issues
more than one transport write, one per chunk; the chunks reassemble the
input in order with no byte duplicated or dropped; the first write goes
through the transport's command write and every later one through its data
write. -/
theorem C8_multi_chunk (N : Nat) (bytes : List Nat)
    (h8 : 8 ≤ N) (hm : N % 8 = 0) (hlong : N * 8 / 9 < bytes.length) :
    ∃ ws, sendCommandsWrites N bytes = some ws ∧
      1 < ws.length ∧
      ws.length = (listChunks (N * 8 / 9) bytes).length ∧
      (listChunks (N * 8 / 9) bytes).flatten = bytes ∧
      (∃ f, ws.head? = some (Wire.cmdWrite f)) ∧
      (∀ w ∈ ws.tail, ∃ f, w = Wire.dataWrite f) := by
  have hk : 1 ≤ N * 8 / 9 := by omega
  cases hch : listChunks (N * 8 / 9) bytes with
  | nil =>
    exfalso
    apply listChunks_length_pos (N * 8 / 9) bytes _ hch
    intro hb
    subst hb
    simp at hlong
  | cons c0 cs =>
    have hc0 : (formatCommand c0 N).isSome :=
      (format_isSome_of_le h8 hm c0
        (listChunks_mem_length _ _ (hch ▸ List.mem_cons_self c0 cs))).1
    cases hf0 : formatCommand c0 N with
    | none => rw [hf0] at hc0; exact absurd hc0 (by simp)
    | some f0 =>
      have hcs : (dataWrites N cs).isSome := by
        apply dataWrites_isSome
        intro c hc
        exact (format_isSome_of_le h8 hm c
          (listChunks_mem_length _ _ (hch ▸ List.mem_cons_of_mem c0 hc))).2
      cases hws : dataWrites N cs with
      | none => rw [hws] at hcs; exact absurd hcs (by simp)
      | some ws0 =>
        refine ⟨Wire.cmdWrite f0 :: ws0, ?_, ?_, ?_, ?_, ?_, ?_⟩
        · simp only [sendCommandsWrites, hch, hf0, hws]
        · have h2 : 1 < (listChunks (N * 8 / 9) bytes).length :=
            listChunks_two_of_lt _ hk bytes hlong
          rw [hch] at h2
          rw [List.length_cons, dataWrites_length hws]
          simpa using h2
        · rw [List.length_cons, List.length_cons, dataWrites_length hws]
        · exact hch ▸ listChunks_join _ hk bytes
        · exact ⟨f0, rfl⟩
        · intro w hw
          exact dataWrites_shape hws w hw

/-- Witness for the amended C8: 10 bytes at capacity 8 split into two
chunks and two writes. -/
theorem C8_witness :
    ∃ ws, sendCommandsWrites 8 (List.replicate 10 1) = some ws ∧
      1 < ws.length ∧
      ws.length = (listChunks (8 * 8 / 9) (List.replicate 10 1)).length ∧
      (listChunks (8 * 8 / 9) (List.replicate 10 1)).flatten = List.replicate 10 1 ∧
      (∃ f, ws.head? = some (Wire.cmdWrite f)) ∧
      (∀ w ∈ ws.tail, ∃ f, w = Wire.dataWrite f) :=
  C8_multi_chunk 8 (List.replicate 10 1) (by decide) (by decide) (by decide)

/-- C9: if the transport write for chunk `k` (with `k` below the number of
chunks) fails with error `e` while all earlier writes succeed, then the
chunks after `k` are never written — exactly the frames of chunks
`0..k-1` reach the transport — and the send returns exactly `e`, with no
retry.  The hypothesis that the frames of chunks `0..k` encode
successfully expresses that the run reaches chunk `k`'s write at all. -/
theorem C9_first_error_abort {ε : Type} (N : Nat) (bytes : List Nat)
    (res : Nat → Except ε Unit) (k : Nat) (e : ε)
    (hk : k < (listChunks (N * 8 / 9) bytes).length)
    (hok : ∀ j, j < k → res j = .ok ())
    (herr : res k = .error e)
    (henc : ((listChunks (N * 8 / 9) bytes).take (k + 1)).all
      (fun c => (formatData c N).isSome) = true) :
    sendDataTrace N bytes res =
      (((listChunks (N * 8 / 9) bytes).take k).map
        (fun c => (formatData c N).getD []), .err e) := by
  unfold sendDataTrace
  apply sendGo_spec N res _ 0 k e hk
  · intro j hj
    simpa using hok j hj
  · simpa using herr
  · exact henc

/-- Witness for C9: three chunks, the second write fails; only the first
frame is written and the error is returned. -/
theorem C9_witness :
    sendDataTrace 8 (List.replicate 21 2)
        (fun i => if i = 1 then Except.error (5 : Nat) else Except.ok ()) =
      (((listChunks (8 * 8 / 9) (List.replicate 21 2)).take 1).map
        (fun c => (formatData c 8).getD []), .err 5) :=
  C9_first_error_abort 8 (List.replicate 21 2)
    (fun i => if i = 1 then Except.error (5 : Nat) else Except.ok ()) 1 5
    (by decide)
    (fun j hj => by
      have hj0 : j = 0 := by omega
      subst hj0
      rfl)
    rfl
    (by decide)

/-- C10: on every non-empty input and every capacity, `format_data` either
panics exactly when `format_command` does, or returns the same bytes
except that byte 0 has its top bit set (`OR 0x80`); in particular the
produced lengths are equal. -/
theorem C10_data_differs_only_in_first_bit (cmd : Nat) (rest : List Nat) (N : Nat) :
    (formatCommand (cmd :: rest) N = none ∧ formatData (cmd :: rest) N = none) ∨
    (∃ h t, formatCommand (cmd :: rest) N = some (h :: t) ∧
      formatData (cmd :: rest) N = some ((h ||| 0x80) :: t)) := by
  by_cases hN : 0 < N
  · cases hc : formatCommand (cmd :: rest) N with
    | none =>
      left
      refine ⟨rfl, ?_⟩
      have h1 := formatCommand_isSome_iff cmd rest N
      have h2 := formatData_isSome_iff cmd rest N
      rw [hc] at h1
      simp only [Option.isSome_none, Bool.false_eq_true, false_iff] at h1
      cases hd : formatData (cmd :: rest) N with
      | none => rfl
      | some out2 =>
        exfalso
        apply h1
        apply h2.mp
        rw [hd]
        rfl
    | some out =>
      right
      rw [formatCommand_cons _ _ _ hN] at hc
      have hb : ∀ j, 1 ≤ j →
          (fun j => if j = 0 then u8shr cmd 1 else 0) j =
          (fun j => if j = 0 then u8shr cmd 1 ||| 0x80 else 0) j := by
        intro j hj
        have : j ≠ 0 := by omega
        simp [this]
      obtain ⟨t, hout, hd⟩ := afterFirst_agree hb hc
      refine ⟨u8shr cmd 1, t, ?_, ?_⟩
      · rw [hout]
        simp
      · rw [formatData_cons _ _ _ hN, hd]
        simp
  · have hzero : N = 0 := by omega
    subst hzero
    left
    exact ⟨formatCommand_cons_zero cmd rest, formatData_cons_zero cmd rest⟩

end St7701s
